import Mathlib

/-!
Verification of the form-builder schema-tree engine and data-sync engine.

The development shallowly embeds the TypeScript sources:
  * `src/types/schema.ts`        — the `Field` data model,
  * `src/utils/recursiveReducer.ts` (tree engine: add / update / delete / move),
  * `src/utils/dataMerging.ts`   — `createInitialFormData`, `mergeFormData`,
                                   `validateRequired`, `validateNumber`, `validateFormData`,
  * `src/context/BuilderContext.tsx` — `importSchema` / `exportSchema`.

JavaScript objects (`Record<string, V>`) are modelled as ordered association
lists with unique keys: assignment to an existing key updates it in place,
assignment to a fresh key appends, mirroring JS property-insertion order.
JavaScript numbers are modelled as `Int` (all numeric values appearing in the
claims are integers); `Number(string)` coercion is modelled on the
integer-literal fragment of JS numeric strings, with `NaN` as `none`.
-/

namespace FormBuilder

/-- The closed field-type discriminant of `types/schema.ts`. -/
inductive FieldType where
  | text
  | number
  | group
deriving DecidableEq, Repr

/-- Direction argument of the move operation. -/
inductive Direction where
  | up
  | down
deriving DecidableEq, Repr

/-- A schema-tree node.  The TS source is a tagged union
(`TextField | NumberField | GroupField`); here it is one uniform record with a
`ftype` discriminant, in which a property that a variant does not carry is
`none` (for `placeholder`/`min`/`max`) or `[]` (a leaf's `children` — JS leaf
objects simply have no `children` property). -/
inductive Field where
  | mk (id : String) (ftype : FieldType) (label : String) (required : Bool)
       (placeholder : Option String) (min : Option Int) (max : Option Int)
       (children : List Field)

mutual

/-- Structural equality test on nodes (decidable equality is derived from it). -/
def Field.beq : Field → Field → Bool
  | .mk i1 t1 l1 r1 p1 m1 x1 c1, .mk i2 t2 l2 r2 p2 m2 x2 c2 =>
      decide (i1 = i2) && decide (t1 = t2) && decide (l1 = l2) && decide (r1 = r2) &&
      decide (p1 = p2) && decide (m1 = m2) && decide (x1 = x2) && Field.beqList c1 c2

/-- Structural equality test on node lists. -/
def Field.beqList : List Field → List Field → Bool
  | [], [] => true
  | a :: as, b :: bs => Field.beq a b && Field.beqList as bs
  | _, _ => false

end

mutual

theorem Field.beq_iff : ∀ (a b : Field), Field.beq a b = true ↔ a = b
  | .mk i1 t1 l1 r1 p1 m1 x1 c1, .mk i2 t2 l2 r2 p2 m2 x2 c2 => by
    rw [Field.beq, Field.mk.injEq]
    simp only [Bool.and_eq_true, decide_eq_true_eq, Field.beqList_iff c1 c2]
    tauto

theorem Field.beqList_iff : ∀ (as bs : List Field), Field.beqList as bs = true ↔ as = bs
  | [], [] => by simp [Field.beqList]
  | [], _ :: _ => by simp [Field.beqList]
  | _ :: _, [] => by simp [Field.beqList]
  | a :: as, b :: bs => by
    rw [Field.beqList]
    simp only [Bool.and_eq_true, Field.beq_iff a b, Field.beqList_iff as bs, List.cons.injEq]

end

instance : DecidableEq Field :=
  fun a b => decidable_of_iff (Field.beq a b = true) (Field.beq_iff a b)

/-- Projection: the `id` property. -/
def Field.id : Field → String
  | .mk i _ _ _ _ _ _ _ => i

/-- Projection: the `type` property. -/
def Field.ftype : Field → FieldType
  | .mk _ ty _ _ _ _ _ _ => ty

/-- Projection: the `label` property. -/
def Field.label : Field → String
  | .mk _ _ l _ _ _ _ _ => l

/-- Projection: the `required` property. -/
def Field.isRequired : Field → Bool
  | .mk _ _ _ r _ _ _ _ => r

/-- Projection: the `placeholder` property. -/
def Field.placeholder : Field → Option String
  | .mk _ _ _ _ ph _ _ _ => ph

/-- Projection: the `min` property. -/
def Field.minV : Field → Option Int
  | .mk _ _ _ _ _ mn _ _ => mn

/-- Projection: the `max` property. -/
def Field.maxV : Field → Option Int
  | .mk _ _ _ _ _ _ mx _ => mx

/-- Projection: the `children` property. -/
def Field.children : Field → List Field
  | .mk _ _ _ _ _ _ _ ch => ch

/-- The root schema `FormSchema { fields }`. -/
structure FormSchema where
  fields : List Field
deriving DecidableEq

/-- The type guard `isGroupField` of `types/schema.ts`. -/
def isGroupField (f : Field) : Bool :=
  f.ftype = FieldType.group

/-- A scalar runtime value (`string | number`). -/
inductive Value where
  | str (s : String)
  | num (n : Int)
deriving DecidableEq, Repr

/-- The flat id-to-value store `FlatFormData = Record<string, string | number>`,
as an ordered association list with unique keys. -/
abbrev FlatFormData := List (String × Value)

/-- Property read `o[k]` on a JS object: the value at the (unique) key, if present. -/
def objGet {α : Type} : List (String × α) → String → Option α
  | [], _ => none
  | kv :: rest, k => if kv.1 = k then some kv.2 else objGet rest k

/-- Property write `o[k] = v` on a JS object: updates an existing key in place
(keeping its position in insertion order) or appends a fresh key. -/
def objSet {α : Type} : List (String × α) → String → α → List (String × α)
  | [], k, v => [(k, v)]
  | kv :: rest, k, v => if kv.1 = k then (k, v) :: rest else kv :: objSet rest k v

/-- The keys of a JS object, in insertion order. -/
def objKeys {α : Type} (o : List (String × α)) : List String :=
  o.map Prod.fst

/-- `Object.assign(o, src)`: writes every property of `src` onto `o`, in order. -/
def objAssign {α : Type} (o src : List (String × α)) : List (String × α) :=
  src.foldl (fun acc kv => objSet acc kv.1 kv.2) o

/-- Every id reachable by the engine's traversals: a node's own id followed by
(for groups) the ids of its subtree, in depth-first pre-order. -/
def allIds : List Field → List String
  | [] => []
  | .mk i ty _ _ _ _ _ ch :: rest =>
      i :: ((if ty = FieldType.group then allIds ch else []) ++ allIds rest)

/-- The ids of the group nodes of a tree (the ids on which `addField` can attach). -/
def groupIds : List Field → List String
  | [] => []
  | .mk i ty _ _ _ _ _ ch :: rest =>
      (if ty = FieldType.group then i :: groupIds ch else []) ++ groupIds rest

/-- `findFieldById` of `recursiveReducer.ts`: depth-first pre-order, first match wins. -/
def findFieldById : List Field → String → Option Field
  | [], _ => none
  | .mk i ty l r ph mn mx ch :: rest, x =>
      if i = x then some (Field.mk i ty l r ph mn mx ch)
      else
        match (if ty = FieldType.group then findFieldById ch x else none) with
        | some f => some f
        | none => findFieldById rest x

/-- An indexed linear scan (`for (let i = 0; ...) if (arr[i].id === id) ...`),
returning the first matching index. -/
def findIdxAux {α : Type} (p : α → Bool) : List α → Nat → Option Nat
  | [], _ => none
  | a :: rest, i => if p a then some i else findIdxAux p rest (i + 1)

/-- A record of partial changes (`Partial<Field>` restricted to the scalar
properties; the UI layer never routes `children` through `updateField`, and a
`children` entry that re-contains the target id would make the source's
`recursiveMap` recursion diverge). `none` means the property is absent. -/
structure FieldUpdates where
  mk ::
  uid : Option String
  utype : Option FieldType
  ulabel : Option String
  urequired : Option Bool
  uplaceholder : Option (Option String)
  umin : Option (Option Int)
  umax : Option (Option Int)
deriving DecidableEq, Repr

/-- The empty changes record. -/
def FieldUpdates.none' : FieldUpdates :=
  FieldUpdates.mk none none none none none none none

/-- The JS object spread `{ ...field, ...updates }`: every property present in
`updates` overwrites the node's property; absent properties are kept.
`children` is always kept (see `FieldUpdates`). -/
def applyUpdates (f : Field) (u : FieldUpdates) : Field :=
  match f with
  | .mk i ty l r ph mn mx ch =>
      Field.mk (u.uid.getD i) (u.utype.getD ty) (u.ulabel.getD l) (u.urequired.getD r)
        (u.uplaceholder.getD ph) (u.umin.getD mn) (u.umax.getD mx) ch

/-- `updateField` of `recursiveReducer.ts`: `recursiveMap` with
`fn = (field) => field.id === id ? { ...field, ...updates } : field`, inlined
(the generic higher-order `recursiveMap` recurses on `fn(field).children`,
which for this `fn` is the original node's `children`, making the recursion
structural).  Value-level model: the source's `newChildren !== children`
reference check selects between two value-equal results, so it is dropped here
(the reference level is treated by the tagged model below). -/
def updateField (tid : String) (u : FieldUpdates) : List Field → List Field
  | [] => []
  | .mk i ty l r ph mn mx ch :: rest =>
      let t := if i = tid then applyUpdates (Field.mk i ty l r ph mn mx ch) u
               else Field.mk i ty l r ph mn mx ch
      (if t.ftype = FieldType.group then
        match t with
        | .mk i' ty' l' r' ph' mn' mx' _ => Field.mk i' ty' l' r' ph' mn' mx' (updateField tid u ch)
       else t) :: updateField tid u rest

/-- `deleteField` of `recursiveReducer.ts`: `recursiveMap` with
`fn = (field) => field.id === id ? null : field`, inlined.  A deleted node is
skipped together with its whole subtree (`fn` is applied before recursion). -/
def deleteField (tid : String) : List Field → List Field
  | [] => []
  | .mk i ty l r ph mn mx ch :: rest =>
      if i = tid then deleteField tid rest
      else
        (if ty = FieldType.group then Field.mk i ty l r ph mn mx (deleteField tid ch)
         else Field.mk i ty l r ph mn mx ch) :: deleteField tid rest

/-- The recursive part of `addField` (the `fields.map(...)` taken when
`parentId` is non-null): appends `nf` to the children of the group whose id is
`pid`; otherwise recurses into groups. -/
def addFieldIn (pid : String) (nf : Field) : List Field → List Field
  | [] => []
  | .mk i ty l r ph mn mx ch :: rest =>
      (if i = pid ∧ ty = FieldType.group then Field.mk i ty l r ph mn mx (ch ++ [nf])
       else if ty = FieldType.group then Field.mk i ty l r ph mn mx (addFieldIn pid nf ch)
       else Field.mk i ty l r ph mn mx ch) :: addFieldIn pid nf rest

/-- `addField` of `recursiveReducer.ts`: `parentId === null` appends at the
root; otherwise the recursive map `addFieldIn`. -/
def addField (fields : List Field) (parentId : Option String) (nf : Field) : List Field :=
  match parentId with
  | none => fields ++ [nf]
  | some pid => addFieldIn pid nf fields

/-- `swapInArray` of `moveField`: computes the neighbour index, returns the
array unchanged when it falls outside the bounds, and otherwise swaps the two
positions in a copy. -/
def swapInArray (arr : List Field) (idx : Nat) (dir : Direction) : List Field :=
  let newIdx : Int := match dir with
    | .up => (idx : Int) - 1
    | .down => (idx : Int) + 1
  if newIdx < 0 ∨ (arr.length : Int) ≤ newIdx then arr
  else
    match arr.get? idx, arr.get? newIdx.toNat with
    | some a, some b => (arr.set idx b).set newIdx.toNat a
    | _, _ => arr

/-- The `fields.map(...)` body of `moveField`, for each group: first scan its
direct children for the target (swapping in place on a hit), otherwise recurse.
The source recurses through the full `moveField`, whose root-level scan repeats
the direct-children scan that has just failed, so it reduces to this map. -/
def moveFieldGo (tid : String) (dir : Direction) : List Field → List Field
  | [] => []
  | .mk i ty l r ph mn mx ch :: rest =>
      (if ty = FieldType.group then
        match findIdxAux (fun c => c.id == tid) ch 0 with
        | some j => Field.mk i ty l r ph mn mx (swapInArray ch j dir)
        | none => Field.mk i ty l r ph mn mx (moveFieldGo tid dir ch)
       else Field.mk i ty l r ph mn mx ch) :: moveFieldGo tid dir rest

/-- `moveField` of `recursiveReducer.ts`: a root-level indexed scan (swap on a
hit) followed by the recursive map over groups. -/
def moveField (fields : List Field) (tid : String) (dir : Direction) : List Field :=
  match findIdxAux (fun f => f.id == tid) fields 0 with
  | some i => swapInArray fields i dir
  | none => moveFieldGo tid dir fields

/-- The accumulator-passing loop of `createInitialFormData` in
`dataMerging.ts`: a group contributes its children's entries via
`Object.assign`, a leaf is initialised with the empty string. -/
def createInitialAux : FlatFormData → List Field → FlatFormData
  | data, [] => data
  | data, .mk i ty _ _ _ _ _ ch :: rest =>
      let data' :=
        if ty = FieldType.group then objAssign data (createInitialAux [] ch)
        else objSet data i (Value.str "")
      createInitialAux data' rest

/-- `createInitialFormData` of `dataMerging.ts`. -/
def createInitialFormData (fields : List Field) : FlatFormData :=
  createInitialAux [] fields

/-- The `collectIds` closure inside `mergeFormData`: the leaf-field ids of a
tree (the code stores them in a `Set`; here a list whose membership is what
matters — the set is in fact never read again in the source). -/
def collectIds : List Field → List String
  | [] => []
  | .mk i ty _ _ _ _ _ ch :: rest =>
      (if ty = FieldType.group then collectIds ch else [i]) ++ collectIds rest

/-- `mergeFormData` of `dataMerging.ts`: build the initial data of the new
schema, then for every id of it copy the current value when the id is a key of
`currentData` (the `id in currentData` membership test coincides with
`objGet ≠ none`, since values are never `undefined`), and the initial empty
value otherwise. -/
def mergeFormData (currentData : FlatFormData) (newSchema : FormSchema) : FlatFormData :=
  let initialData := createInitialFormData newSchema.fields
  initialData.foldl
    (fun merged kv =>
      match objGet currentData kv.1 with
      | some v => objSet merged kv.1 v
      | none => objSet merged kv.1 kv.2)
    []

/-- `validateRequired` of `dataMerging.ts`.  `none` models a missing entry
(`undefined`); `null` cannot occur in the store and is subsumed by it. -/
def validateRequired (value : Option Value) (label : String) : Option String :=
  let isActuallyEmpty :=
    match value with
    | none => true
    | some (Value.str s) => s = ""
    | some (Value.num _) => false
  let isWhitespaceOnly :=
    match value with
    | some (Value.str s) => s.trim = ""
    | _ => false
  if isActuallyEmpty || isWhitespaceOnly then some (label ++ " is required") else none

/-- JavaScript `Number(value)` coercion on the store's values, with `none` for
`NaN`: a number coerces to itself, a string is trimmed and read as an integer
literal (the numeric strings arising in this system are integer literals), the
empty/whitespace-only string coerces to `0`. -/
def jsNumber : Value → Option Int
  | Value.num n => some n
  | Value.str s =>
      let t := s.trim
      if t = "" then some 0 else t.toInt?

/-- The `numValue < field.min` guard (false when no `min` is configured). -/
def belowMin (n : Int) : Option Int → Bool
  | some m => n < m
  | none => false

/-- The `numValue > field.max` guard (false when no `max` is configured). -/
def aboveMax (n : Int) : Option Int → Bool
  | some m => m < n
  | none => false

/-- `validateNumber` of `dataMerging.ts`: skip when empty/unset, reserved
sentinel and failed coercion give the valid-number message, then the `min` and
`max` bounds in that order. -/
def validateNumber (value : Option Value) (label : String) (mn mx : Option Int) :
    Option String :=
  match value with
  | none => none
  | some v =>
      if v = Value.str "" then none
      else if v = Value.str "__INVALID_NUMBER__" then
        some (label ++ " must be a valid number")
      else
        match jsNumber v with
        | none => some (label ++ " must be a valid number")
        | some numValue =>
            if belowMin numValue mn then
              some (label ++ " must be at least " ++ toString (mn.getD 0))
            else if aboveMax numValue mx then
              some (label ++ " must be at most " ++ toString (mx.getD 0))
            else none

/-- The per-field walk of `validateFormData`, threading the `errors` object:
groups recurse into their children without an entry of their own, a leaf first
runs the required check (recording it and stopping on failure) and then, for
number fields, the number check. -/
def validateFieldsAux (data : FlatFormData) :
    List (String × String) → List Field → List (String × String)
  | errors, [] => errors
  | errors, .mk i ty l r _ mn mx ch :: rest =>
      let errors' :=
        if ty = FieldType.group then validateFieldsAux data errors ch
        else
          let value := objGet data i
          match (if r then validateRequired value l else none) with
          | some e => objSet errors i e
          | none =>
              if ty = FieldType.number then
                match validateNumber value l mn mx with
                | some e => objSet errors i e
                | none => errors
              else errors
      validateFieldsAux data errors' rest

/-- `validateFormData` of `dataMerging.ts`. -/
def validateFormData (data : FlatFormData) (fields : List Field) : List (String × String) :=
  validateFieldsAux data [] fields

/-- A JSON value.  `JSON.parse` on a text yields such a value (or fails);
numbers are restricted to the integers, as everywhere in this development. -/
inductive Json where
  | null
  | bool (b : Bool)
  | num (n : Int)
  | str (s : String)
  | arr (elems : List Json)
  | obj (members : List (String × Json))

/-- JavaScript truthiness of a parsed JSON value (the `!parsed` rejection):
`null`, `false`, `0` and the empty string are falsy; arrays and objects are
always truthy. -/
def jsFalsy : Json → Bool
  | Json.null => true
  | Json.bool b => !b
  | Json.num n => n = 0
  | Json.str s => s = ""
  | Json.arr _ => false
  | Json.obj _ => false

/-- Member lookup in a JSON object's member list. -/
def lookupMem : List (String × Json) → String → Option Json
  | [], _ => none
  | kv :: rest, k => if kv.1 = k then some kv.2 else lookupMem rest k

/-- The property read `parsed.fields`: a member of an object, `undefined`
(here `none`) on any non-object. -/
def jGet (j : Json) (k : String) : Option Json :=
  match j with
  | Json.obj members => lookupMem members k
  | _ => none

/-- Reads a JS string property out of a decoded JSON member (the `as FormSchema`
cast performs no validation; a missing or ill-typed member is given the
neutral default). -/
def asStr : Option Json → String
  | some (Json.str s) => s
  | _ => ""

/-- Reads a JS boolean property out of a decoded JSON member. -/
def asBool : Option Json → Bool
  | some (Json.bool b) => b
  | _ => false

/-- Reads an optional number property out of a decoded JSON member. -/
def asOptInt : Option Json → Option Int
  | some (Json.num n) => some n
  | _ => none

/-- Reads an optional string property out of a decoded JSON member. -/
def asOptStr : Option Json → Option String
  | some (Json.str s) => some s
  | _ => none

/-- Reads the `type` discriminant (an unknown tag decodes as `text`; the source
trusts the cast and never reaches this case through the public contract). -/
def asFieldType : Option Json → FieldType
  | some (Json.str "text") => FieldType.text
  | some (Json.str "number") => FieldType.number
  | some (Json.str "group") => FieldType.group
  | _ => FieldType.text

mutual

/-- Reads a parsed JSON node back as a typed `Field` (the untyped
`as FormSchema` cast of `importSchema`, expressed on the typed model). -/
def decodeField : Json → Field
  | Json.obj members =>
      Field.mk (asStr (lookupMem members "id")) (asFieldType (lookupMem members "type"))
        (asStr (lookupMem members "label")) (asBool (lookupMem members "required"))
        (asOptStr (lookupMem members "placeholder")) (asOptInt (lookupMem members "min"))
        (asOptInt (lookupMem members "max")) (decodeChildrenOf members)
  | _ => Field.mk "" FieldType.text "" false none none none []

/-- Scans an object's members for the `children` array and decodes it. -/
def decodeChildrenOf : List (String × Json) → List Field
  | [] => []
  | (k, v) :: rest =>
      if k = "children" then
        match v with
        | Json.arr elems => decodeList elems
        | _ => []
      else decodeChildrenOf rest

/-- Decodes a JSON array of nodes. -/
def decodeList : List Json → List Field
  | [] => []
  | j :: rest => decodeField j :: decodeList rest

end

/-- `importSchema` of `BuilderContext.tsx`, over the outcome of `JSON.parse`
(`none` models a parse exception).  A falsy parse or a missing / non-array
`fields` member is rejected with the prior tree retained; otherwise the parsed
schema is installed wholesale (`SET_SCHEMA`), and the boolean reports success. -/
def importSchema (parsed : Option Json) (prior : FormSchema) : Bool × FormSchema :=
  match parsed with
  | none => (false, prior)
  | some p =>
      if jsFalsy p then (false, prior)
      else
        match jGet p "fields" with
        | some (Json.arr fs) => (true, FormSchema.mk (decodeList fs))
        | _ => (false, prior)

/-- Prints the `type` discriminant. -/
def typeName : FieldType → String
  | FieldType.text => "text"
  | FieldType.number => "number"
  | FieldType.group => "group"

mutual

/-- `JSON.stringify` of one node, at the JSON-value level (the text layer is a
bijection on JSON values and is dropped): properties in creation order, with
`undefined`-valued properties omitted, exactly as `JSON.stringify` omits them;
only group nodes carry a `children` property. -/
def encodeField : Field → Json
  | .mk i ty l r ph mn mx ch =>
      Json.obj
        ([("id", Json.str i), ("type", Json.str (typeName ty)), ("label", Json.str l),
          ("required", Json.bool r)] ++
          (match ph with | some p => [("placeholder", Json.str p)] | none => []) ++
          (match mn with | some m => [("min", Json.num m)] | none => []) ++
          (match mx with | some m => [("max", Json.num m)] | none => []) ++
          (if ty = FieldType.group then [("children", Json.arr (encodeList ch))] else []))

/-- `JSON.stringify` of a node array, element by element. -/
def encodeList : List Field → List Json
  | [] => []
  | f :: rest => encodeField f :: encodeList rest

end

/-- `exportSchema` of `BuilderContext.tsx`, at the JSON-value level. -/
def exportSchema (s : FormSchema) : Json :=
  Json.obj [("fields", Json.arr (encodeList s.fields))]

/-- Checks that every leaf of the tree has an empty `children` list — the
well-formedness every tree built by the engine satisfies (JS leaf objects have
no `children` property at all; the uniform model gives them `[]`). -/
def leafChildrenOk : List Field → Bool
  | [] => true
  | .mk _ ty _ _ _ _ _ ch :: rest =>
      (if ty = FieldType.group then leafChildrenOk ch else ch.isEmpty) && leafChildrenOk rest

/-!
Reference-level (tagged) model.  JavaScript `!==` on objects and arrays is
allocation identity, which a pure value model cannot see.  The tagged model
makes allocation explicit: every node object carries a `tag` and every
children array carries a `childrenTag`; an operation threads a counter of the
next fresh tag, every `{ ... }` or `[...]` allocation in the source consumes a
fresh tag, and a value returned without reallocation keeps its tag.  Two
occurrences denote the same JS reference exactly when their tags agree
(the input tree is well-tagged: all its tags are distinct and below the
starting counter). -/

/-- A schema-tree node with explicit allocation tags (see above). -/
inductive RField where
  | mk (tag : Nat) (id : String) (ftype : FieldType) (label : String) (required : Bool)
       (placeholder : Option String) (min : Option Int) (max : Option Int)
       (childrenTag : Nat) (children : List RField)

/-- Projection: the node-object allocation tag. -/
def RField.tag : RField → Nat
  | .mk tg _ _ _ _ _ _ _ _ _ => tg

/-- Projection: the node id. -/
def RField.id : RField → String
  | .mk _ i _ _ _ _ _ _ _ _ => i

/-- Projection: the node type. -/
def RField.ftype : RField → FieldType
  | .mk _ _ ty _ _ _ _ _ _ _ => ty

/-- Projection: the allocation tag of the node's children array. -/
def RField.childrenTag : RField → Nat
  | .mk _ _ _ _ _ _ _ _ ct _ => ct

/-- Erases the allocation tags, recovering the value-level node. -/
def rEraseField : RField → Field
  | .mk _ i ty l r ph mn mx _ ch => Field.mk i ty l r ph mn mx (rEraseList ch)
where
  /-- Erases the tags of a node list. -/
  rEraseList : List RField → List Field
  | [] => []
  | f :: rest => rEraseField f :: rEraseList rest

/-- The element loop of tagged `updateField` (`recursiveMap` with the
update-`fn`).  `fn` on the target performs the spread `{ ...field, ...updates }`
— a fresh object whose `children` reference is copied; `recursiveMap` then
rebuilds every group it visits behind a freshly allocated children array, so
its `newChildren !== transformed.children` sharing check is compared here as
tag disequality, exactly as in the source. -/
def rUpdateGo (tid : String) (u : FieldUpdates) :
    List RField → Nat → List RField × Nat
  | [], ctr => ([], ctr)
  | .mk tg i ty l r ph mn mx chTag ch :: rest, ctr =>
      let tPair : RField × Nat :=
        if i = tid then
          (RField.mk ctr (u.uid.getD i) (u.utype.getD ty) (u.ulabel.getD l)
            (u.urequired.getD r) (u.uplaceholder.getD ph) (u.umin.getD mn)
            (u.umax.getD mx) chTag ch, ctr + 1)
        else (RField.mk tg i ty l r ph mn mx chTag ch, ctr)
      match tPair with
      | (RField.mk tg' i' ty' l' r' ph' mn' mx' chTag' _, ctr1) =>
        if ty' = FieldType.group then
          let chPair := rUpdateGo tid u ch ctr1
          -- the recursive recursiveMap call returned a freshly allocated array:
          let newChTag := chPair.2
          let ctr2 := chPair.2 + 1
          if newChTag ≠ chTag' then
            let restPair := rUpdateGo tid u rest (ctr2 + 1)
            (RField.mk ctr2 i' ty' l' r' ph' mn' mx' newChTag chPair.1 :: restPair.1,
              restPair.2)
          else
            let restPair := rUpdateGo tid u rest ctr2
            (RField.mk tg' i' ty' l' r' ph' mn' mx' chTag' ch :: restPair.1, restPair.2)
        else
          let restPair := rUpdateGo tid u rest ctr1
          (RField.mk tg' i' ty' l' r' ph' mn' mx' chTag' ch :: restPair.1, restPair.2)

/-- Tagged `updateField`: the top-level `recursiveMap` call, whose result array
is itself a fresh allocation.  Returns `((array tag, elements), next counter)`. -/
def rUpdateField (fields : List RField) (tid : String) (u : FieldUpdates) (ctr : Nat) :
    (Nat × List RField) × Nat :=
  let go := rUpdateGo tid u fields ctr
  ((go.2, go.1), go.2 + 1)

/-- Tagged `swapInArray`: out-of-bounds returns the very same array (same tag);
otherwise `[...arr]` allocates a fresh array in which the two slots are swapped. -/
def rSwapInArray (arrTag : Nat) (arr : List RField) (idx : Nat) (dir : Direction)
    (ctr : Nat) : (Nat × List RField) × Nat :=
  let newIdx : Int := match dir with
    | .up => (idx : Int) - 1
    | .down => (idx : Int) + 1
  if newIdx < 0 ∨ (arr.length : Int) ≤ newIdx then ((arrTag, arr), ctr)
  else
    match arr.get? idx, arr.get? newIdx.toNat with
    | some a, some b => ((ctr, (arr.set idx b).set newIdx.toNat a), ctr + 1)
    | _, _ => ((arrTag, arr), ctr)

/-- The element loop of tagged `moveField`'s `fields.map(...)`: for each group,
scan its direct children (on a hit, swap and keep the group's reference exactly
when the swap returned the same array, i.e. the same tag — the boundary case);
otherwise recurse.  The source recurses through the full `moveField`, whose
root scan repeats the direct scan that has just failed, so the recursion
reduces to this map, which allocates a fresh children array. -/
def rMoveGo (tid : String) (dir : Direction) : List RField → Nat → List RField × Nat
  | [], ctr => ([], ctr)
  | .mk tg i ty l r ph mn mx chTag ch :: rest, ctr =>
      if ty = FieldType.group then
        match findIdxAux (fun c => c.id == tid) ch 0 with
        | some j =>
          let sw := rSwapInArray chTag ch j dir ctr
          let newChTag := sw.1.1
          let ctr1 := sw.2
          if newChTag ≠ chTag then
            let restPair := rMoveGo tid dir rest (ctr1 + 1)
            (RField.mk ctr1 i ty l r ph mn mx newChTag sw.1.2 :: restPair.1, restPair.2)
          else
            let restPair := rMoveGo tid dir rest ctr1
            (RField.mk tg i ty l r ph mn mx chTag ch :: restPair.1, restPair.2)
        | none =>
          let deep := rMoveGo tid dir ch ctr
          let newChTag := deep.2
          let ctr1 := deep.2 + 1
          if newChTag ≠ chTag then
            let restPair := rMoveGo tid dir rest (ctr1 + 1)
            (RField.mk ctr1 i ty l r ph mn mx newChTag deep.1 :: restPair.1, restPair.2)
          else
            let restPair := rMoveGo tid dir rest ctr1
            (RField.mk tg i ty l r ph mn mx chTag ch :: restPair.1, restPair.2)
      else
        let restPair := rMoveGo tid dir rest ctr
        (RField.mk tg i ty l r ph mn mx chTag ch :: restPair.1, restPair.2)

/-- Tagged `moveField`: the root-level scan either swaps at the root (keeping
the root array's reference in the boundary case) or falls through to
`fields.map(...)`, which always allocates a fresh root array. -/
def rMoveField (arrTag : Nat) (fields : List RField) (tid : String) (dir : Direction)
    (ctr : Nat) : (Nat × List RField) × Nat :=
  match findIdxAux (fun f => f.id == tid) fields 0 with
  | some i => rSwapInArray arrTag fields i dir ctr
  | none =>
    let deep := rMoveGo tid dir fields ctr
    ((deep.2, deep.1), deep.2 + 1)

/-! Lemmas about the JS-object model. -/

section ObjLemmas

variable {α : Type}

theorem objKeys_nil : objKeys ([] : List (String × α)) = [] := rfl

theorem objKeys_cons (kv : String × α) (l : List (String × α)) :
    objKeys (kv :: l) = kv.1 :: objKeys l := rfl

theorem objKeys_append (l1 l2 : List (String × α)) :
    objKeys (l1 ++ l2) = objKeys l1 ++ objKeys l2 := by
  simp [objKeys]

theorem objAssign_nil (o : List (String × α)) : objAssign o [] = o := rfl

theorem objAssign_cons (o : List (String × α)) (kv : String × α) (src : List (String × α)) :
    objAssign o (kv :: src) = objAssign (objSet o kv.1 kv.2) src := rfl

theorem objGet_objSet (o : List (String × α)) (k k' : String) (v : α) :
    objGet (objSet o k v) k' = if k' = k then some v else objGet o k' := by
  induction o with
  | nil =>
    rcases eq_or_ne k' k with h | h
    · subst h; simp [objSet, objGet]
    · have h' : k ≠ k' := fun hh => h hh.symm
      simp [objSet, objGet, h, h']
  | cons kv rest ih =>
    rcases eq_or_ne kv.1 k with h | h
    · rcases eq_or_ne k' k with h2 | h2
      · subst h2; simp [objSet, objGet, h]
      · have h2' : k ≠ k' := fun hh => h2 hh.symm
        have h3 : kv.1 ≠ k' := by rw [h]; exact h2'
        simp [objSet, objGet, h, h2, h2', h3]
    · rcases eq_or_ne kv.1 k' with h2 | h2
      · have h3 : k' ≠ k := fun hh => h (h2.trans hh)
        simp [objSet, objGet, h, h2, h3]
      · simp [objSet, objGet, h, h2, ih]

theorem objGet_eq_none_iff (o : List (String × α)) (k : String) :
    objGet o k = none ↔ k ∉ objKeys o := by
  induction o with
  | nil => simp [objGet, objKeys_nil]
  | cons kv rest ih =>
    rcases eq_or_ne kv.1 k with h | h
    · subst h; simp [objGet, objKeys_cons]
    · rw [objGet, if_neg h, objKeys_cons]
      simp only [List.mem_cons, not_or, ih]
      constructor
      · exact fun hx => ⟨fun hh => h hh.symm, hx⟩
      · exact fun hx => hx.2

theorem objKeys_objSet (o : List (String × α)) (k : String) (v : α) :
    objKeys (objSet o k v) = if k ∈ objKeys o then objKeys o else objKeys o ++ [k] := by
  induction o with
  | nil => simp [objSet, objKeys_nil, objKeys_cons]
  | cons kv rest ih =>
    rcases eq_or_ne kv.1 k with h | h
    · subst h; simp [objSet, objKeys_cons]
    · have h' : k ≠ kv.1 := fun hh => h hh.symm
      by_cases h2 : k ∈ objKeys rest <;>
        simp [objSet, objKeys_cons, h, h', h2, ih]

theorem nodup_objSet (o : List (String × α)) (k : String) (v : α)
    (h : (objKeys o).Nodup) : (objKeys (objSet o k v)).Nodup := by
  rw [objKeys_objSet]
  by_cases hm : k ∈ objKeys o
  · simpa [hm] using h
  · simp only [hm, if_false, List.nodup_append, List.nodup_singleton]
    exact ⟨h, by simp, by simpa using hm⟩

theorem nodup_objAssign (o src : List (String × α))
    (h : (objKeys o).Nodup) : (objKeys (objAssign o src)).Nodup := by
  induction src generalizing o with
  | nil => simpa [objAssign_nil] using h
  | cons kv rest ih =>
    rw [objAssign_cons]
    exact ih (objSet o kv.1 kv.2) (nodup_objSet o kv.1 kv.2 h)

theorem objGet_objAssign (o src : List (String × α)) (k : String)
    (h : (objKeys src).Nodup) :
    objGet (objAssign o src) k = (objGet src k).or (objGet o k) := by
  induction src generalizing o with
  | nil => simp [objAssign_nil, objGet]
  | cons kv rest ih =>
    rw [objKeys_cons, List.nodup_cons] at h
    rw [objAssign_cons, ih (objSet o kv.1 kv.2) h.2, objGet_objSet]
    rcases eq_or_ne kv.1 k with hk | hk
    · subst hk
      have hrest : objGet rest kv.1 = none := (objGet_eq_none_iff rest kv.1).mpr h.1
      rw [hrest, objGet, if_pos rfl, if_pos rfl]
      rfl
    · rw [objGet, if_neg hk, if_neg (fun hh => hk hh.symm)]

theorem objSet_fresh (o : List (String × α)) (k : String) (v : α)
    (h : k ∉ objKeys o) : objSet o k v = o ++ [(k, v)] := by
  induction o with
  | nil => simp [objSet]
  | cons kv rest ih =>
    rw [objKeys_cons, List.mem_cons] at h
    push_neg at h
    rw [objSet, if_neg (fun hh => h.1 hh.symm), List.cons_append, ih h.2]

theorem foldl_objSet_map (g : String → α → α) :
    ∀ (l acc : List (String × α)), (objKeys l).Nodup →
      (∀ k ∈ objKeys l, k ∉ objKeys acc) →
      l.foldl (fun m kv => objSet m kv.1 (g kv.1 kv.2)) acc =
        acc ++ l.map (fun kv => (kv.1, g kv.1 kv.2)) := by
  intro l
  induction l with
  | nil => simp
  | cons kv rest ih =>
    intro acc hnd hdisj
    rw [objKeys_cons, List.nodup_cons] at hnd
    have hfresh : kv.1 ∉ objKeys acc := hdisj kv.1 (by rw [objKeys_cons]; simp)
    have hstep : objSet acc kv.1 (g kv.1 kv.2) = acc ++ [(kv.1, g kv.1 kv.2)] :=
      objSet_fresh acc kv.1 _ hfresh
    have hdisj' : ∀ k ∈ objKeys rest, k ∉ objKeys (acc ++ [(kv.1, g kv.1 kv.2)]) := by
      intro k hk
      rw [objKeys_append, List.mem_append]
      push_neg
      refine ⟨hdisj k (by rw [objKeys_cons]; exact List.mem_cons.mpr (Or.inr hk)), ?_⟩
      simp only [objKeys_cons, objKeys_nil, List.mem_singleton]
      exact fun hke => hnd.1 (hke ▸ hk)
    rw [List.foldl_cons, hstep, ih (acc ++ [(kv.1, g kv.1 kv.2)]) hnd.2 hdisj']
    simp

theorem objGet_map (g : String → α → α) (l : List (String × α)) (k : String) :
    objGet (l.map (fun kv => (kv.1, g kv.1 kv.2))) k = (objGet l k).map (g k) := by
  induction l with
  | nil => simp [objGet]
  | cons kv rest ih =>
    rcases eq_or_ne kv.1 k with h | h
    · subst h; simp [objGet]
    · simp only [List.map_cons, objGet, if_neg h, ih]

theorem objKeys_map (g : String → α → α) (l : List (String × α)) :
    objKeys (l.map (fun kv => (kv.1, g kv.1 kv.2))) = objKeys l := by
  simp only [objKeys, List.map_map]
  rfl

theorem objGet_of_mem_nodup (l : List (String × α)) (kv : String × α)
    (hnd : (objKeys l).Nodup) (hm : kv ∈ l) : objGet l kv.1 = some kv.2 := by
  induction l with
  | nil => simp at hm
  | cons hd rest ih =>
    rw [objKeys_cons, List.nodup_cons] at hnd
    rcases List.mem_cons.mp hm with h | h
    · subst h; simp [objGet]
    · have hne : hd.1 ≠ kv.1 := by
        intro he
        exact hnd.1 (he ▸ List.mem_map.mpr ⟨kv, h, rfl⟩)
      rw [objGet, if_neg hne]
      exact ih hnd.2 h

end ObjLemmas

/-! Lemmas about `createInitialFormData` and `mergeFormData`. -/

theorem ci_nodup : ∀ (fs : List Field) (acc : FlatFormData),
    (objKeys acc).Nodup → (objKeys (createInitialAux acc fs)).Nodup
  | [], acc, h => by
    rw [createInitialAux]
    exact h
  | .mk i ty l r ph mn mx ch :: rest, acc, h => by
    rw [createInitialAux]
    by_cases hg : ty = FieldType.group
    · rw [if_pos hg]
      exact ci_nodup rest _ (nodup_objAssign _ _ h)
    · rw [if_neg hg]
      exact ci_nodup rest _ (nodup_objSet _ _ _ h)

theorem ci_get : ∀ (fs : List Field) (acc : FlatFormData) (x : String),
    objGet (createInitialAux acc fs) x =
      if x ∈ collectIds fs then some (Value.str "") else objGet acc x
  | [], acc, x => by
    rw [createInitialAux, collectIds]
    simp
  | .mk i ty l r ph mn mx ch :: rest, acc, x => by
    rw [createInitialAux, collectIds]
    by_cases hg : ty = FieldType.group
    · have hch := ci_get ch [] x
      have hrest := ci_get rest (objAssign acc (createInitialAux [] ch)) x
      rw [if_pos hg, if_pos hg, hrest,
        objGet_objAssign _ _ _ (ci_nodup ch [] (by rw [objKeys_nil]; exact List.nodup_nil)),
        hch]
      by_cases h1 : x ∈ collectIds rest <;> by_cases h2 : x ∈ collectIds ch <;>
        simp [h1, h2, objGet, Option.or]
    · have hrest := ci_get rest (objSet acc i (Value.str "")) x
      rw [if_neg hg, if_neg hg, hrest, objGet_objSet]
      by_cases h1 : x ∈ collectIds rest <;> by_cases h2 : x = i <;>
        simp [h1, h2]

theorem mergeFormData_eq_map (d : FlatFormData) (s : FormSchema) :
    mergeFormData d s =
      (createInitialFormData s.fields).map
        (fun kv => (kv.1, (objGet d kv.1).getD kv.2)) := by
  unfold mergeFormData
  have hbody :
      (fun (merged : FlatFormData) (kv : String × Value) =>
        match objGet d kv.1 with
        | some v => objSet merged kv.1 v
        | none => objSet merged kv.1 kv.2) =
      fun merged kv => objSet merged kv.1 ((objGet d kv.1).getD kv.2) := by
    funext merged kv
    cases objGet d kv.1 <;> rfl
  rw [hbody,
    foldl_objSet_map (fun k v => (objGet d k).getD v) (createInitialFormData s.fields) []
      (ci_nodup s.fields [] (by simp [objKeys])) (by simp [objKeys])]
  simp

theorem mem_objKeys_iff_get {α : Type} (o : List (String × α)) (k : String) :
    k ∈ objKeys o ↔ objGet o k ≠ none := by
  rw [Ne, objGet_eq_none_iff, not_not]

/-- The claim's sources name `mergeFormData`; this is its full input-output
characterisation, from which every conjunct of the claim follows. -/
theorem mergeFormData_get (d : FlatFormData) (s : FormSchema) (x : String) :
    objGet (mergeFormData d s) x =
      if x ∈ collectIds s.fields then some ((objGet d x).getD (Value.str "")) else none := by
  rw [mergeFormData_eq_map,
    objGet_map (fun k v => (objGet d k).getD v) (createInitialFormData s.fields) x]
  have h := ci_get s.fields [] x
  rw [createInitialFormData] at *
  rw [h]
  by_cases hm : x ∈ collectIds s.fields <;> simp [hm, objGet]

/-- C1: the merged map's key set is exactly the leaf ids of the new schema;
a leaf id present in the current map keeps its current value, a leaf id absent
from it gets the empty string, and every other key is dropped.  In particular
a leaf `a` holding `"hello"` keeps it under any schema edit retaining `a`. -/
theorem c1_merge_preserves_by_identity (d : FlatFormData) (s : FormSchema) (x : String) :
    (objGet (mergeFormData d s) x =
      if x ∈ collectIds s.fields then some ((objGet d x).getD (Value.str "")) else none) ∧
    (x ∈ objKeys (mergeFormData d s) ↔ x ∈ collectIds s.fields) := by
  refine ⟨mergeFormData_get d s x, ?_⟩
  rw [mem_objKeys_iff_get, mergeFormData_get d s x]
  by_cases hm : x ∈ collectIds s.fields <;> simp [hm]

/-- C10: merging is idempotent for a fixed schema — a second merge against the
same schema finds every one of its leaf ids already present and copies it. -/
theorem c10_merge_idempotent (d : FlatFormData) (s : FormSchema) :
    mergeFormData (mergeFormData d s) s = mergeFormData d s := by
  conv_lhs => rw [mergeFormData_eq_map]
  rw [mergeFormData_eq_map]
  apply List.map_congr_left
  intro kv hm
  have hnd : (objKeys (createInitialFormData s.fields)).Nodup :=
    ci_nodup s.fields [] (by simp [objKeys])
  have hget : objGet (createInitialFormData s.fields) kv.1 = some kv.2 :=
    objGet_of_mem_nodup _ kv hnd hm
  rw [objGet_map (fun k v => (objGet d k).getD v) (createInitialFormData s.fields) kv.1, hget]
  rfl

/-! Lemmas about the tree engine's traversals and the not-found no-ops. -/

theorem find_eq_none_iff : ∀ (fs : List Field) (x : String),
    findFieldById fs x = none ↔ x ∉ allIds fs
  | [], x => by rw [findFieldById, allIds]; simp
  | .mk i ty l r ph mn mx ch :: rest, x => by
    rw [findFieldById, allIds]
    by_cases hix : i = x
    · subst hix
      simp
    · rw [if_neg hix]
      have hxi : x ≠ i := fun hh => hix hh.symm
      by_cases hg : ty = FieldType.group
      · rw [if_pos hg, if_pos hg]
        have h1 := find_eq_none_iff ch x
        have h2 := find_eq_none_iff rest x
        cases hch : findFieldById ch x with
        | some f =>
          have hx : x ∈ allIds ch := by
            by_contra hxc
            rw [h1.mpr hxc] at hch
            exact Option.noConfusion hch
          simp [hx]
        | none =>
          have hxch : x ∉ allIds ch := h1.mp hch
          simp [h2, hxi, hxch]
      · rw [if_neg hg, if_neg hg]
        have h2 := find_eq_none_iff rest x
        simp [h2, hxi]

theorem find_some_id : ∀ (fs : List Field) (x : String) (nd : Field),
    findFieldById fs x = some nd → nd.id = x
  | [], x, nd => by rw [findFieldById]; intro h; exact Option.noConfusion h
  | .mk i ty l r ph mn mx ch :: rest, x, nd => by
    rw [findFieldById]
    by_cases hix : i = x
    · rw [if_pos hix]
      intro h
      cases h
      exact hix
    · rw [if_neg hix]
      by_cases hg : ty = FieldType.group
      · rw [if_pos hg]
        cases hch : findFieldById ch x with
        | some f =>
          intro h
          cases h
          exact find_some_id ch x _ hch
        | none => exact find_some_id rest x nd
      · rw [if_neg hg]
        exact find_some_id rest x nd

/-- The ids of a found node's whole subtree occur in the tree it was found in. -/
theorem find_subtree_ids : ∀ (fs : List Field) (g : String) (nd : Field),
    findFieldById fs g = some nd → ∀ x ∈ allIds [nd], x ∈ allIds fs
  | [], g, nd => by rw [findFieldById]; intro h; exact Option.noConfusion h
  | .mk i ty l r ph mn mx ch :: rest, g, nd => by
    rw [findFieldById]
    by_cases hig : i = g
    · rw [if_pos hig]
      intro h x hx
      cases h
      rw [allIds] at hx ⊢
      rcases List.mem_cons.mp hx with hx | hx
      · exact List.mem_cons.mpr (Or.inl hx)
      · rw [List.mem_append] at hx
        rcases hx with hx | hx
        · exact List.mem_cons.mpr (Or.inr (List.mem_append.mpr (Or.inl hx)))
        · rw [allIds] at hx
          simp at hx
    · rw [if_neg hig]
      by_cases hg : ty = FieldType.group
      · rw [if_pos hg]
        cases hch : findFieldById ch g with
        | some f =>
          intro h x hx
          cases h
          have := find_subtree_ids ch g _ hch x hx
          rw [allIds]
          exact List.mem_cons.mpr (Or.inr (List.mem_append.mpr (Or.inl (by rw [if_pos hg]; exact this))))
        | none =>
          intro h x hx
          have := find_subtree_ids rest g nd h x hx
          rw [allIds]
          exact List.mem_cons.mpr (Or.inr (List.mem_append.mpr (Or.inr this)))
      · rw [if_neg hg]
        intro h x hx
        have := find_subtree_ids rest g nd h x hx
        rw [allIds]
        exact List.mem_cons.mpr (Or.inr (List.mem_append.mpr (Or.inr this)))

/-- `update` on an id absent from the tree touches nothing. -/
theorem update_noop (tid : String) (u : FieldUpdates) : ∀ (fs : List Field),
    tid ∉ allIds fs → updateField tid u fs = fs
  | [], _ => by rw [updateField]
  | .mk i ty l r ph mn mx ch :: rest, h => by
    rw [allIds] at h
    simp only [List.mem_cons, List.mem_append, not_or] at h
    obtain ⟨h1, h2, h3⟩ := h
    have hne : i ≠ tid := fun hh => h1 hh.symm
    rw [updateField]
    simp only [if_neg hne]
    by_cases hg : ty = FieldType.group
    · have hch : tid ∉ allIds ch := by
        rw [if_pos hg] at h2
        exact h2
      simp only [Field.ftype, if_pos hg, update_noop tid u ch hch, update_noop tid u rest h3]
    · simp only [Field.ftype, if_neg hg, update_noop tid u rest h3]

/-- `delete` on an id absent from the tree touches nothing. -/
theorem delete_noop (tid : String) : ∀ (fs : List Field),
    tid ∉ allIds fs → deleteField tid fs = fs
  | [], _ => by rw [deleteField]
  | .mk i ty l r ph mn mx ch :: rest, h => by
    rw [allIds] at h
    simp only [List.mem_cons, List.mem_append, not_or] at h
    obtain ⟨h1, h2, h3⟩ := h
    have hne : i ≠ tid := fun hh => h1 hh.symm
    rw [deleteField]
    simp only [if_neg hne]
    by_cases hg : ty = FieldType.group
    · have hch : tid ∉ allIds ch := by
        rw [if_pos hg] at h2
        exact h2
      simp only [if_pos hg, delete_noop tid ch hch, delete_noop tid rest h3]
    · simp only [if_neg hg, delete_noop tid rest h3]

/-- `add` under a parent id that is not a group's id touches nothing. -/
theorem addIn_noop (pid : String) (nf : Field) : ∀ (fs : List Field),
    pid ∉ groupIds fs → addFieldIn pid nf fs = fs
  | [], _ => by rw [addFieldIn]
  | .mk i ty l r ph mn mx ch :: rest, h => by
    rw [groupIds] at h
    simp only [List.mem_append, not_or] at h
    obtain ⟨h1, h3⟩ := h
    rw [addFieldIn]
    by_cases hg : ty = FieldType.group
    · rw [if_pos hg, List.mem_cons, not_or] at h1
      obtain ⟨h1a, h1b⟩ := h1
      have hni : ¬(i = pid ∧ ty = FieldType.group) := fun hh => h1a hh.1.symm
      simp only [if_neg hni, if_pos hg, addIn_noop pid nf ch h1b, addIn_noop pid nf rest h3]
    · have hni : ¬(i = pid ∧ ty = FieldType.group) := fun hh => hg hh.2
      simp only [if_neg hni, if_neg hg, addIn_noop pid nf rest h3]

theorem mem_allIds_of_mem : ∀ (fs : List Field) (f : Field), f ∈ fs → f.id ∈ allIds fs
  | [], f => by intro h; simp at h
  | .mk i ty l r ph mn mx ch :: rest, f => by
    intro h
    rw [allIds]
    rcases List.mem_cons.mp h with h | h
    · subst h
      exact List.mem_cons.mpr (Or.inl rfl)
    · exact List.mem_cons.mpr (Or.inr (List.mem_append.mpr (Or.inr (mem_allIds_of_mem rest f h))))

theorem findIdxAux_eq_none {α : Type} (p : α → Bool) : ∀ (l : List α) (n : Nat),
    (∀ a ∈ l, p a = false) → findIdxAux p l n = none
  | [], _, _ => rfl
  | a :: rest, n, h => by
    rw [findIdxAux, h a (List.mem_cons.mpr (Or.inl rfl))]
    exact findIdxAux_eq_none p rest (n + 1) (fun b hb => h b (List.mem_cons.mpr (Or.inr hb)))

/-- The inner map of `move` on an id absent from the tree touches nothing. -/
theorem moveGo_noop (tid : String) (dir : Direction) : ∀ (fs : List Field),
    tid ∉ allIds fs → moveFieldGo tid dir fs = fs
  | [], _ => by rw [moveFieldGo]
  | .mk i ty l r ph mn mx ch :: rest, h => by
    rw [allIds] at h
    simp only [List.mem_cons, List.mem_append, not_or] at h
    obtain ⟨h1, h2, h3⟩ := h
    rw [moveFieldGo]
    by_cases hg : ty = FieldType.group
    · have hch : tid ∉ allIds ch := by
        rw [if_pos hg] at h2
        exact h2
      have hidx : findIdxAux (fun c => c.id == tid) ch 0 = none := by
        apply findIdxAux_eq_none
        intro c hc
        have : c.id ∈ allIds ch := mem_allIds_of_mem ch c hc
        simp only [beq_eq_false_iff_ne, ne_eq]
        intro he
        exact hch (he ▸ this)
      simp only [if_pos hg, hidx, moveGo_noop tid dir ch hch, moveGo_noop tid dir rest h3]
    · simp only [if_neg hg, moveGo_noop tid dir rest h3]

/-- `move` on an id absent from the tree touches nothing. -/
theorem move_noop (fs : List Field) (tid : String) (dir : Direction)
    (h : tid ∉ allIds fs) : moveField fs tid dir = fs := by
  rw [moveField]
  have hidx : findIdxAux (fun f => f.id == tid) fs 0 = none := by
    apply findIdxAux_eq_none
    intro f hf
    have : f.id ∈ allIds fs := mem_allIds_of_mem fs f hf
    simp only [beq_eq_false_iff_ne, ne_eq]
    intro he
    exact h (he ▸ this)
  rw [hidx]
  exact moveGo_noop tid dir fs h

/-- Splits the `Nodup` of a pre-order id listing into its parts. -/
theorem nodup_parts {i : String} {l1 l2 : List String} (h : (i :: (l1 ++ l2)).Nodup) :
    i ∉ l1 ∧ i ∉ l2 ∧ l1.Nodup ∧ l2.Nodup ∧ ∀ x ∈ l1, x ∉ l2 := by
  rw [List.nodup_cons, List.nodup_append] at h
  obtain ⟨hi, h1, h2, hdisj⟩ := h
  rw [List.mem_append] at hi
  push_neg at hi
  exact ⟨hi.1, hi.2, h1, h2, fun x hx hx2 => hdisj hx hx2⟩

theorem groupIds_subset_allIds : ∀ (fs : List Field) (x : String),
    x ∈ groupIds fs → x ∈ allIds fs
  | [], x => by intro h; rw [groupIds] at h; simp at h
  | .mk i ty l r ph mn mx ch :: rest, x => by
    intro h
    rw [groupIds] at h
    rw [allIds]
    rcases List.mem_append.mp h with h | h
    · by_cases hg : ty = FieldType.group
      · rw [if_pos hg] at h
        rcases List.mem_cons.mp h with h | h
        · exact List.mem_cons.mpr (Or.inl h)
        · exact List.mem_cons.mpr (Or.inr (List.mem_append.mpr (Or.inl
            (by rw [if_pos hg]; exact groupIds_subset_allIds ch x h))))
      · rw [if_neg hg] at h
        simp at h
    · exact List.mem_cons.mpr (Or.inr (List.mem_append.mpr (Or.inr
        (groupIds_subset_allIds rest x h))))

/-- C7: targeting an id absent from the tree is a benign no-op for update,
delete and move, and so is adding under an absent parent id or under a parent
id that names a non-group node. -/
theorem c7_not_found_noop (fs : List Field) (tid pid : String) (u : FieldUpdates)
    (nf : Field) (dir : Direction)
    (h : tid ∉ allIds fs) (h2 : pid ∉ groupIds fs) :
    updateField tid u fs = fs ∧ deleteField tid fs = fs ∧ moveField fs tid dir = fs ∧
    addField fs (some tid) nf = fs ∧ addField fs (some pid) nf = fs := by
  have htg : tid ∉ groupIds fs := fun hh => h (groupIds_subset_allIds fs tid hh)
  refine ⟨update_noop tid u fs h, delete_noop tid fs h, move_noop fs tid dir h, ?_, ?_⟩
  · rw [addField]
    exact addIn_noop tid nf fs htg
  · rw [addField]
    exact addIn_noop pid nf fs h2

/-- A sample text leaf. -/
def sampleA : Field := Field.mk "a" FieldType.text "A" false none none none []

/-- A sample text leaf. -/
def sampleB : Field := Field.mk "b" FieldType.text "B" false none none none []

/-- A sample group wrapping the two leaves. -/
def sampleG : Field := Field.mk "g" FieldType.group "G" false none none none [sampleA, sampleB]

/-- A sample one-group tree. -/
def sampleTree : List Field := [sampleG]

/-- Witness for C7 at a concrete tree: `"zzz"` occurs nowhere, `"a"` names a
text (non-group) node. -/
theorem c7_not_found_noop_witness :
    "zzz" ∉ allIds sampleTree ∧ "a" ∉ groupIds sampleTree ∧
    (updateField "zzz" FieldUpdates.none' sampleTree = sampleTree ∧
     deleteField "zzz" sampleTree = sampleTree ∧
     moveField sampleTree "zzz" Direction.up = sampleTree ∧
     addField sampleTree (some "zzz") sampleB = sampleTree ∧
     addField sampleTree (some "a") sampleB = sampleTree) := by
  have h : "zzz" ∉ allIds sampleTree := by
    simp [allIds, sampleTree, sampleG, sampleA, sampleB]
  have h2 : "a" ∉ groupIds sampleTree := by
    simp [groupIds, sampleTree, sampleG, sampleA, sampleB]
  exact ⟨h, h2, c7_not_found_noop sampleTree "zzz" "a" FieldUpdates.none' sampleB Direction.up h h2⟩

/-! Deletion lemmas for C8. -/

theorem delete_subset_ids : ∀ (fs : List Field) (tid x : String),
    x ∈ allIds (deleteField tid fs) → x ∈ allIds fs
  | [], tid, x => by rw [deleteField]; exact id
  | .mk i ty l r ph mn mx ch :: rest, tid, x => by
    rw [deleteField]
    by_cases hi : i = tid
    · rw [if_pos hi]
      intro h
      rw [allIds]
      exact List.mem_cons.mpr (Or.inr (List.mem_append.mpr (Or.inr
        (delete_subset_ids rest tid x h))))
    · rw [if_neg hi]
      by_cases hg : ty = FieldType.group
      · rw [if_pos hg]
        intro h
        rw [allIds] at h ⊢
        rcases List.mem_cons.mp h with h | h
        · exact List.mem_cons.mpr (Or.inl h)
        · rw [List.mem_append] at h
          rcases h with h | h
          · rw [if_pos hg] at h ⊢
            exact List.mem_cons.mpr (Or.inr (List.mem_append.mpr (Or.inl
              (delete_subset_ids ch tid x h))))
          · exact List.mem_cons.mpr (Or.inr (List.mem_append.mpr (Or.inr
              (delete_subset_ids rest tid x h))))
      · rw [if_neg hg]
        intro h
        rw [allIds] at h ⊢
        rcases List.mem_cons.mp h with h | h
        · exact List.mem_cons.mpr (Or.inl h)
        · rw [List.mem_append] at h
          rcases h with h | h
          · rw [if_neg hg] at h
            simp at h
          · exact List.mem_cons.mpr (Or.inr (List.mem_append.mpr (Or.inr
              (delete_subset_ids rest tid x h))))

theorem delete_removes : ∀ (fs : List Field) (g : String) (nd : Field),
    (allIds fs).Nodup → findFieldById fs g = some nd →
    ∀ x, x ∈ allIds [nd] → x ∉ allIds (deleteField g fs)
  | [], g, nd => by
    intro _ hf
    rw [findFieldById] at hf
    exact absurd hf (by simp)
  | .mk i ty l r ph mn mx ch :: rest, g, nd => by
    intro hnd hf x hx
    rw [allIds] at hnd
    rw [findFieldById] at hf
    rw [deleteField]
    by_cases hig : i = g
    · rw [if_pos hig] at hf
      cases hf
      rw [if_pos hig]
      obtain ⟨hi1, hi2, hch, hrest, hdisj⟩ := nodup_parts hnd
      intro hmem
      have hsub := delete_subset_ids rest g x hmem
      rw [allIds, allIds] at hx
      rcases List.mem_cons.mp hx with hx | hx
      · subst hx
        exact hi2 hsub
      · rw [List.append_nil] at hx
        by_cases hgr : ty = FieldType.group
        · rw [if_pos hgr] at hx
          exact hdisj x (by rw [if_pos hgr]; exact hx) hsub
        · rw [if_neg hgr] at hx
          simp at hx
    · rw [if_neg hig] at hf
      rw [if_neg hig]
      by_cases hg : ty = FieldType.group
      · rw [if_pos hg] at hf hnd
        rw [if_pos hg]
        obtain ⟨hi1, hi2, hch, hrest, hdisj⟩ := nodup_parts hnd
        cases hfch : findFieldById ch g with
        | some f =>
          rw [hfch] at hf
          simp only [Option.some.injEq] at hf
          subst hf
          have hxch : x ∈ allIds ch := find_subtree_ids ch g f hfch x hx
          rw [allIds]
          simp only [List.mem_cons, List.mem_append, not_or, if_pos hg]
          refine ⟨fun he => hi1 (he ▸ hxch), ?_, ?_⟩
          · exact delete_removes ch g f hch hfch x hx
          · intro hmem
            exact hdisj x hxch (delete_subset_ids rest g x hmem)
        | none =>
          rw [hfch] at hf
          simp only at hf
          have hxrest : x ∈ allIds rest := find_subtree_ids rest g nd hf x hx
          rw [allIds]
          simp only [List.mem_cons, List.mem_append, not_or, if_pos hg]
          refine ⟨fun he => hi2 (he ▸ hxrest), ?_, ?_⟩
          · intro hmem
            exact hdisj x (delete_subset_ids ch g x hmem) hxrest
          · exact delete_removes rest g nd hrest hf x hx
      · rw [if_neg hg] at hf hnd
        rw [if_neg hg]
        simp only at hf
        rw [List.nil_append] at hnd
        rw [List.nodup_cons] at hnd
        obtain ⟨hi2, hrest⟩ := hnd
        have hxrest : x ∈ allIds rest := find_subtree_ids rest g nd hf x hx
        rw [allIds]
        simp only [List.mem_cons, List.mem_append, not_or, if_neg hg]
        refine ⟨fun he => hi2 (he ▸ hxrest), by simp, ?_⟩
        exact delete_removes rest g nd hrest hf x hx

theorem delete_retains : ∀ (fs : List Field) (g : String) (nd : Field),
    (allIds fs).Nodup → findFieldById fs g = some nd →
    ∀ x, x ∈ allIds fs → x ∉ allIds [nd] → x ∈ allIds (deleteField g fs)
  | [], g, nd => by
    intro _ hf
    rw [findFieldById] at hf
    exact absurd hf (by simp)
  | .mk i ty l r ph mn mx ch :: rest, g, nd => by
    intro hnd hf x hx hxnd
    rw [allIds] at hnd
    rw [findFieldById] at hf
    rw [deleteField]
    obtain ⟨hi1, hi2, hch0, hrest, hdisj⟩ := nodup_parts hnd
    by_cases hig : i = g
    · rw [if_pos hig] at hf
      cases hf
      rw [if_pos hig]
      have hgrest : g ∉ allIds rest := hig ▸ hi2
      rw [delete_noop g rest hgrest]
      rw [allIds] at hx
      rcases List.mem_cons.mp hx with hx | hx
      · exfalso
        apply hxnd
        rw [allIds, allIds, List.append_nil]
        exact List.mem_cons.mpr (Or.inl hx)
      · rw [List.mem_append] at hx
        rcases hx with hx | hx
        · exfalso
          apply hxnd
          rw [allIds, allIds, List.append_nil]
          exact List.mem_cons.mpr (Or.inr hx)
        · exact hx
    · rw [if_neg hig] at hf
      rw [if_neg hig]
      by_cases hg : ty = FieldType.group
      · rw [if_pos hg] at hf
        rw [if_pos hg]
        have hch : (allIds ch).Nodup := by
          rw [if_pos hg] at hch0
          exact hch0
        cases hfch : findFieldById ch g with
        | some f =>
          rw [hfch] at hf
          simp only [Option.some.injEq] at hf
          subst hf
          have hgch : g ∈ allIds ch := by
            apply find_subtree_ids ch g f hfch
            have hmem : f.id ∈ allIds [f] := mem_allIds_of_mem [f] f (by simp)
            rw [find_some_id ch g f hfch] at hmem
            exact hmem
          have hgrest : g ∉ allIds rest :=
            fun hh => hdisj g (by rw [if_pos hg]; exact hgch) hh
          rw [delete_noop g rest hgrest, allIds]
          rw [allIds] at hx
          rcases List.mem_cons.mp hx with hx | hx
          · exact List.mem_cons.mpr (Or.inl hx)
          · rw [List.mem_append] at hx
            rcases hx with hx | hx
            · rw [if_pos hg] at hx
              refine List.mem_cons.mpr (Or.inr (List.mem_append.mpr (Or.inl ?_)))
              rw [if_pos hg]
              exact delete_retains ch g f hch hfch x hx hxnd
            · exact List.mem_cons.mpr (Or.inr (List.mem_append.mpr (Or.inr hx)))
        | none =>
          rw [hfch] at hf
          simp only at hf
          have hgch : g ∉ allIds ch := (find_eq_none_iff ch g).mp hfch
          rw [delete_noop g ch hgch, allIds]
          rw [allIds] at hx
          rcases List.mem_cons.mp hx with hx | hx
          · exact List.mem_cons.mpr (Or.inl hx)
          · rw [List.mem_append] at hx
            rcases hx with hx | hx
            · exact List.mem_cons.mpr (Or.inr (List.mem_append.mpr (Or.inl hx)))
            · refine List.mem_cons.mpr (Or.inr (List.mem_append.mpr (Or.inr ?_)))
              exact delete_retains rest g nd hrest hf x hx hxnd
      · rw [if_neg hg] at hf
        rw [if_neg hg]
        simp only at hf
        rw [allIds]
        rw [allIds] at hx
        rcases List.mem_cons.mp hx with hx | hx
        · exact List.mem_cons.mpr (Or.inl hx)
        · rw [List.mem_append] at hx
          rcases hx with hx | hx
          · rw [if_neg hg] at hx
            simp at hx
          · refine List.mem_cons.mpr (Or.inr (List.mem_append.mpr (Or.inr ?_)))
            exact delete_retains rest g nd hrest hf x hx hxnd

/-- C8: deleting a group removes its whole subtree — `findFieldById`
subsequently fails for the group's id and for every id that occurred anywhere
under it — while every id outside the deleted subtree is still found. -/
theorem c8_delete_removes_subtree (fs : List Field) (g : String) (nd : Field)
    (hnd : (allIds fs).Nodup) (hf : findFieldById fs g = some nd)
    (_hgr : nd.ftype = FieldType.group) :
    (∀ x ∈ allIds [nd], findFieldById (deleteField g fs) x = none) ∧
    (∀ x, x ∈ allIds fs → x ∉ allIds [nd] → findFieldById (deleteField g fs) x ≠ none) := by
  constructor
  · intro x hx
    exact (find_eq_none_iff (deleteField g fs) x).mpr (delete_removes fs g nd hnd hf x hx)
  · intro x hx hxnd hcontra
    exact (find_eq_none_iff (deleteField g fs) x).mp hcontra
      (delete_retains fs g nd hnd hf x hx hxnd)

/-- A sample nested group. -/
def sampleH : Field := Field.mk "h" FieldType.group "H" false none none none [sampleB]

/-- A sample deeper tree: a group `g` containing leaf `a` and group `h`
(containing leaf `b`), next to a root leaf `c`. -/
def sampleC : Field := Field.mk "c" FieldType.text "C" false none none none []

/-- The tree for the C8 witness. -/
def sampleTree8 : List Field :=
  [Field.mk "g" FieldType.group "G" false none none none [sampleA, sampleH], sampleC]

/-- Witness for C8 at a concrete tree with a nested subtree. -/
theorem c8_delete_removes_subtree_witness :
    (allIds sampleTree8).Nodup ∧
    findFieldById sampleTree8 "g" =
      some (Field.mk "g" FieldType.group "G" false none none none [sampleA, sampleH]) ∧
    ((∀ x ∈ allIds [Field.mk "g" FieldType.group "G" false none none none [sampleA, sampleH]],
        findFieldById (deleteField "g" sampleTree8) x = none) ∧
     (∀ x, x ∈ allIds sampleTree8 →
        x ∉ allIds [Field.mk "g" FieldType.group "G" false none none none [sampleA, sampleH]] →
        findFieldById (deleteField "g" sampleTree8) x ≠ none)) := by
  have h1 : (allIds sampleTree8).Nodup := by
    simp [allIds, sampleTree8, sampleA, sampleB, sampleC, sampleH]
  have h2 : findFieldById sampleTree8 "g" =
      some (Field.mk "g" FieldType.group "G" false none none none [sampleA, sampleH]) := by
    simp [findFieldById, sampleTree8, sampleA, sampleB, sampleC, sampleH]
  exact ⟨h1, h2, c8_delete_removes_subtree sampleTree8 "g" _ h1 h2 (by rfl)⟩

/-! Update lemmas for C3. -/

/-- The `(id, type)` pairs of every node of the tree, in pre-order. -/
def idTypePairs : List Field → List (String × FieldType)
  | [] => []
  | .mk i ty _ _ _ _ _ ch :: rest =>
      (i, ty) :: ((if ty = FieldType.group then idTypePairs ch else []) ++ idTypePairs rest)

/-- When the changes record carries no `id` and no `type` entry, `update`
preserves every node's `id` and `type`. -/
theorem update_idTypePairs (tid : String) (u : FieldUpdates)
    (hid : u.uid = none) (hty : u.utype = none) : ∀ (fs : List Field),
    idTypePairs (updateField tid u fs) = idTypePairs fs
  | [] => by rw [updateField]
  | .mk i ty l r ph mn mx ch :: rest => by
    rw [updateField]
    by_cases hit : i = tid
    · simp only [if_pos hit, applyUpdates, hid, hty, Option.getD_none, Field.ftype]
      by_cases hg : ty = FieldType.group
      · simp only [if_pos hg, idTypePairs,
          update_idTypePairs tid u hid hty ch, update_idTypePairs tid u hid hty rest]
      · simp only [if_neg hg, idTypePairs, update_idTypePairs tid u hid hty rest]
    · simp only [if_neg hit, Field.ftype]
      by_cases hg : ty = FieldType.group
      · simp only [if_pos hg, idTypePairs,
          update_idTypePairs tid u hid hty ch, update_idTypePairs tid u hid hty rest]
      · simp only [if_neg hg, idTypePairs, update_idTypePairs tid u hid hty rest]

/-- When the changes record carries no `id` and no `type` entry, the targeted
node is replaced (under unique ids) by exactly the shallow merge of its
properties with the record. -/
theorem update_find : ∀ (fs : List Field) (tid : String) (u : FieldUpdates) (f : Field),
    u.uid = none → u.utype = none → (allIds fs).Nodup →
    findFieldById fs tid = some f →
    findFieldById (updateField tid u fs) tid = some (applyUpdates f u)
  | [], tid, u, f => by
    intro _ _ _ hf
    rw [findFieldById] at hf
    exact absurd hf (by simp)
  | .mk i ty l r ph mn mx ch :: rest, tid, u, f => by
    intro hid hty hnd hf
    rw [allIds] at hnd
    obtain ⟨hi1, hi2, hch0, hrest, hdisj⟩ := nodup_parts hnd
    rw [findFieldById] at hf
    rw [updateField]
    by_cases hit : i = tid
    · rw [if_pos hit] at hf
      cases hf
      simp only [if_pos hit, applyUpdates, hid, hty, Option.getD_none, Field.ftype]
      by_cases hg : ty = FieldType.group
      · have hto : tid ∉ allIds ch := by
          rw [if_pos hg] at hi1
          exact hit ▸ hi1
        simp only [if_pos hg, update_noop tid u ch hto, findFieldById, if_pos hit]
      · simp only [if_neg hg, findFieldById, if_pos hit]
    · rw [if_neg hit] at hf
      simp only [if_neg hit, Field.ftype]
      by_cases hg : ty = FieldType.group
      · rw [if_pos hg] at hf
        have hch : (allIds ch).Nodup := by
          rw [if_pos hg] at hch0
          exact hch0
        simp only [if_pos hg, findFieldById, if_neg hit]
        cases hfch : findFieldById ch tid with
        | some fc =>
          rw [hfch] at hf
          simp only [Option.some.injEq] at hf
          subst hf
          rw [update_find ch tid u fc hid hty hch hfch]
        | none =>
          rw [hfch] at hf
          simp only at hf
          have hto : tid ∉ allIds ch := (find_eq_none_iff ch tid).mp hfch
          rw [update_noop tid u ch hto, hfch]
          exact update_find rest tid u f hid hty hrest hf
      · rw [if_neg hg] at hf
        simp only at hf
        simp only [if_neg hg, findFieldById, if_neg hit, if_neg hg]
        exact update_find rest tid u f hid hty hrest hf

/-- C3 counterexample: the source's `{ ...field, ...updates }` spread does not
protect `id` — updating node `a` with a record containing `id: "z"` renames it. -/
theorem c3_update_id_counterexample :
    (updateField "a" (FieldUpdates.mk (some "z") none none none none none none)
      [sampleA]).map Field.id = ["z"] ∧ ("z" : String) ≠ "a" := by
  constructor
  · simp [updateField, applyUpdates, sampleA, Field.ftype, Field.id]
  · decide

/-- C3 (amended): `update` replaces the targeted node by the shallow merge of
its properties with the changes record; `id` and `type` are preserved exactly
when the record carries no `id`/`type` entry — a record containing them does
overwrite them (see the counterexample). -/
theorem c3_update_shallow_merge (fs : List Field) (tid : String) (u : FieldUpdates)
    (f : Field) (hid : u.uid = none) (hty : u.utype = none) :
    idTypePairs (updateField tid u fs) = idTypePairs fs ∧
    ((allIds fs).Nodup → findFieldById fs tid = some f →
      findFieldById (updateField tid u fs) tid = some (applyUpdates f u)) :=
  ⟨update_idTypePairs tid u hid hty fs,
   fun hnd hf => update_find fs tid u f hid hty hnd hf⟩

/-- The changes record used by the C3 witness: label and required only. -/
def updLabel : FieldUpdates :=
  FieldUpdates.mk none none (some "New label") (some true) none none none

/-- Witness for the amended C3 at a concrete tree. -/
theorem c3_update_shallow_merge_witness :
    updLabel.uid = none ∧ updLabel.utype = none ∧ (allIds sampleTree).Nodup ∧
    findFieldById sampleTree "a" = some sampleA ∧
    (idTypePairs (updateField "a" updLabel sampleTree) = idTypePairs sampleTree ∧
     ((allIds sampleTree).Nodup → findFieldById sampleTree "a" = some sampleA →
       findFieldById (updateField "a" updLabel sampleTree) "a" =
         some (applyUpdates sampleA updLabel))) := by
  have h1 : updLabel.uid = none := rfl
  have h2 : updLabel.utype = none := rfl
  have h3 : (allIds sampleTree).Nodup := by
    simp [allIds, sampleTree, sampleG, sampleA, sampleB]
  have h4 : findFieldById sampleTree "a" = some sampleA := by
    simp [findFieldById, sampleTree, sampleG, sampleA, sampleB]
  exact ⟨h1, h2, h3, h4, c3_update_shallow_merge sampleTree "a" updLabel sampleA h1 h2⟩

/-! Validation lemmas for C6. -/

/-- The number-check cascade in the spec's wording: the reserved sentinel gives
the valid-number message; a failed coercion gives the same message; otherwise a
value below a configured `min` gives the at-least message, else a value above a
configured `max` gives the at-most message; at most one error results. -/
def specNumberError (v : Value) (label : String) (mn mx : Option Int) : Option String :=
  if v = Value.str "__INVALID_NUMBER__" then some (label ++ " must be a valid number")
  else
    match jsNumber v with
    | none => some (label ++ " must be a valid number")
    | some n =>
        match mn with
        | some m =>
            if n < m then some (label ++ " must be at least " ++ toString m)
            else
              match mx with
              | some mM => if mM < n then some (label ++ " must be at most " ++ toString mM) else none
              | none => none
        | none =>
            match mx with
            | some mM => if mM < n then some (label ++ " must be at most " ++ toString mM) else none
            | none => none

/-- On a non-empty value the source's `validateNumber` computes exactly the
cascade of the spec. -/
theorem validateNumber_spec (v : Value) (label : String) (mn mx : Option Int)
    (hne : v ≠ Value.str "") :
    validateNumber (some v) label mn mx = specNumberError v label mn mx := by
  by_cases hs : v = Value.str "__INVALID_NUMBER__"
  · simp [validateNumber, specNumberError, hne, hs]
  · cases hn : jsNumber v with
    | none => simp [validateNumber, specNumberError, hne, hs, hn]
    | some n =>
      cases mn with
      | none =>
        cases mx with
        | none => simp [validateNumber, specNumberError, hne, hs, hn, belowMin, aboveMax]
        | some mM =>
          by_cases hM : mM < n <;>
            simp [validateNumber, specNumberError, hne, hs, hn, belowMin, aboveMax, hM]
      | some m =>
        by_cases hm : n < m
        · simp [validateNumber, specNumberError, hne, hs, hn, belowMin, hm]
        · cases mx with
          | none => simp [validateNumber, specNumberError, hne, hs, hn, belowMin, aboveMax, hm]
          | some mM =>
            by_cases hM : mM < n <;>
              simp [validateNumber, specNumberError, hne, hs, hn, belowMin, aboveMax, hm, hM]

/-- The `Age` number field of the claim's concrete schema. -/
def ageField : Field := Field.mk "n1" FieldType.number "Age" true none (some 0) (some 120) []

/-- C6: on a one-number-field schema whose value is non-empty and passes the
required check, validation records exactly the spec's number-check cascade
(first failing rule wins, at most one error per field); and the claim's three
concrete examples evaluate as stated. -/
theorem c6_number_validation :
    (∀ (fid label : String) (req : Bool) (mn mx : Option Int) (v : Value),
      v ≠ Value.str "" →
      (req = true → validateRequired (some v) label = none) →
      validateFormData [(fid, v)] [Field.mk fid FieldType.number label req none mn mx []] =
        (match specNumberError v label mn mx with
         | some e => [(fid, e)]
         | none => [])) ∧
    validateFormData [("n1", Value.num 150)] [ageField] = [("n1", "Age must be at most 120")] ∧
    validateFormData [("n1", Value.str "")] [ageField] = [("n1", "Age is required")] ∧
    validateFormData [("n1", Value.num 30)] [ageField] = [] := by
  refine ⟨?_, ?_, ?_, ?_⟩
  · intro fid label req mn mx v hne hreq
    rw [validateFormData]
    simp only [validateFieldsAux]
    simp only [objGet, if_pos rfl, if_true]
    have hreq' : (if req = true then validateRequired (some v) label else none) = none := by
      cases req with
      | true => simpa using hreq rfl
      | false => simp
    rw [hreq', validateNumber_spec v label mn mx hne]
    cases specNumberError v label mn mx with
    | some e => simp [objSet]
    | none => simp
  · simp [validateFormData, validateFieldsAux, ageField, validateRequired, validateNumber,
      jsNumber, belowMin, aboveMax, objGet, objSet]
    decide
  · simp [validateFormData, validateFieldsAux, ageField, validateRequired, validateNumber,
      jsNumber, belowMin, aboveMax, objGet, objSet]
  · simp [validateFormData, validateFieldsAux, ageField, validateRequired, validateNumber,
      jsNumber, belowMin, aboveMax, objGet, objSet]

/-- Witness for C6's general part at the concrete input `150` against `Age`. -/
theorem c6_number_validation_witness :
    Value.num 150 ≠ Value.str "" ∧
    validateFormData [("n1", Value.num 150)]
        [Field.mk "n1" FieldType.number "Age" true none (some 0) (some 120) []] =
      (match specNumberError (Value.num 150) "Age" (some 0) (some 120) with
       | some e => [("n1", e)]
       | none => []) := by
  refine ⟨by decide, ?_⟩
  exact c6_number_validation.1 "n1" "Age" true (some 0) (some 120) (Value.num 150)
    (by decide) (fun _ => by simp [validateRequired])

/-! Import/export lemmas for C4 and C5. -/

/-- C4: a parse failure, or a parse whose `fields` member is missing or not an
array, makes `importSchema` report failure and leave the prior tree exactly as
it was (no partial application) — in particular for the parse of
`"{\x22foo\x22: 1}"` — while a parse with an array `fields` member reports
success and installs the parsed schema wholesale. -/
theorem c4_import_rejection :
    (∀ prior : FormSchema, importSchema none prior = (false, prior)) ∧
    (∀ (prior : FormSchema) (j : Json),
      (match jGet j "fields" with
       | some (Json.arr _) => False
       | _ => True) →
      importSchema (some j) prior = (false, prior)) ∧
    (∀ prior : FormSchema,
      importSchema (some (Json.obj [("foo", Json.num 1)])) prior = (false, prior)) ∧
    (∀ (prior : FormSchema) (j : Json) (fs : List Json),
      jGet j "fields" = some (Json.arr fs) →
      importSchema (some j) prior = (true, FormSchema.mk (decodeList fs))) := by
  refine ⟨fun prior => rfl, ?_, ?_, ?_⟩
  · intro prior j hshape
    cases hj : jGet j "fields" with
    | none =>
      cases hfal : jsFalsy j with
      | true => simp [importSchema, hfal]
      | false => simp [importSchema, hfal, hj]
    | some jf =>
      rw [hj] at hshape
      cases jf with
      | arr es => exact hshape.elim
      | null =>
        cases hfal : jsFalsy j with
        | true => simp [importSchema, hfal]
        | false => simp [importSchema, hfal, hj]
      | bool b =>
        cases hfal : jsFalsy j with
        | true => simp [importSchema, hfal]
        | false => simp [importSchema, hfal, hj]
      | num n =>
        cases hfal : jsFalsy j with
        | true => simp [importSchema, hfal]
        | false => simp [importSchema, hfal, hj]
      | str st =>
        cases hfal : jsFalsy j with
        | true => simp [importSchema, hfal]
        | false => simp [importSchema, hfal, hj]
      | obj members =>
        cases hfal : jsFalsy j with
        | true => simp [importSchema, hfal]
        | false => simp [importSchema, hfal, hj]
  · intro prior
    simp [importSchema, jsFalsy, jGet, lookupMem]
  · intro prior j fs hj
    cases j with
    | obj members => simp [importSchema, jsFalsy, hj]
    | null => exact absurd hj (by simp [jGet])
    | bool b => exact absurd hj (by simp [jGet])
    | num n => exact absurd hj (by simp [jGet])
    | str st => exact absurd hj (by simp [jGet])
    | arr es => exact absurd hj (by simp [jGet])

/-- Witness for C4 at concrete inputs: the `foo` object is rejected with the
prior tree kept; a shape-failing number parse is rejected; an object with an
empty `fields` array is accepted and installed. -/
theorem c4_import_rejection_witness :
    importSchema (some (Json.obj [("foo", Json.num 1)])) (FormSchema.mk sampleTree) =
      (false, FormSchema.mk sampleTree) ∧
    importSchema (some (Json.num 5)) (FormSchema.mk sampleTree) =
      (false, FormSchema.mk sampleTree) ∧
    importSchema (some (Json.obj [("fields", Json.arr [])])) (FormSchema.mk sampleTree) =
      (true, FormSchema.mk (decodeList [])) :=
  ⟨c4_import_rejection.2.2.1 (FormSchema.mk sampleTree),
   c4_import_rejection.2.1 (FormSchema.mk sampleTree) (Json.num 5) (by simp [jGet]),
   c4_import_rejection.2.2.2 (FormSchema.mk sampleTree) (Json.obj [("fields", Json.arr [])])
     [] (by simp [jGet, lookupMem])⟩

/-- Decoding inverts encoding on every well-formed tree (leaves carry no
children), node by node. -/
theorem decode_encode : ∀ (fs : List Field), leafChildrenOk fs = true →
    decodeList (encodeList fs) = fs
  | [], _ => by rw [encodeList, decodeList]
  | .mk i ty l r ph mn mx ch :: rest, h => by
    rw [leafChildrenOk] at h
    simp only [Bool.and_eq_true] at h
    obtain ⟨hhead, hrest⟩ := h
    rw [encodeList, decodeList, decode_encode rest hrest]
    congr 1
    by_cases hg : ty = FieldType.group
    · subst hg
      have hch : leafChildrenOk ch = true := by simpa using hhead
      rcases ph with _ | p <;> rcases mn with _ | m <;> rcases mx with _ | mM <;>
        simp [encodeField, decodeField, lookupMem, asStr, asBool, asOptInt, asOptStr,
          asFieldType, typeName, decodeChildrenOf, decode_encode ch hch]
    · have hch : ch = [] := by
        rw [if_neg hg] at hhead
        simpa using hhead
      subst hch
      cases ty with
      | group => exact absurd rfl hg
      | text =>
        rcases ph with _ | p <;> rcases mn with _ | m <;> rcases mx with _ | mM <;>
          simp [encodeField, decodeField, lookupMem, asStr, asBool, asOptInt, asOptStr,
            asFieldType, typeName, decodeChildrenOf]
      | number =>
        rcases ph with _ | p <;> rcases mn with _ | m <;> rcases mx with _ | mM <;>
          simp [encodeField, decodeField, lookupMem, asStr, asBool, asOptInt, asOptStr,
            asFieldType, typeName, decodeChildrenOf]

/-- C5: importing the export of a well-formed tree succeeds and reconstructs a
schema value-equal to it. -/
theorem c5_export_import_round_trip (s prior : FormSchema)
    (h : leafChildrenOk s.fields = true) :
    importSchema (some (exportSchema s)) prior = (true, s) := by
  cases s with
  | mk fields =>
    simp only at h
    simp [exportSchema, importSchema, jsFalsy, jGet, lookupMem, decode_encode fields h]

/-- Witness for C5 at a concrete tree containing a group and two leaves. -/
theorem c5_export_import_round_trip_witness :
    leafChildrenOk sampleTree = true ∧
    importSchema (some (exportSchema (FormSchema.mk sampleTree))) (FormSchema.mk []) =
      (true, FormSchema.mk sampleTree) := by
  have h : leafChildrenOk sampleTree = true := by
    simp [leafChildrenOk, sampleTree, sampleG, sampleA, sampleB]
  exact ⟨h, c5_export_import_round_trip (FormSchema.mk sampleTree) (FormSchema.mk []) h⟩

/-! Reference-level evaluations for C2 and C9. -/

/-- A tagged text leaf `a` (tag 2, children-array tag 90). -/
def rSampleA : RField := RField.mk 2 "a" FieldType.text "A" false none none none 90 []

/-- A tagged text leaf `b` (tag 5, children-array tag 91). -/
def rSampleB : RField := RField.mk 5 "b" FieldType.text "B" false none none none 91 []

/-- A tagged group `g1` (tag 0) containing leaf `a`. -/
def rSampleG1 : RField := RField.mk 0 "g1" FieldType.group "G1" false none none none 1 [rSampleA]

/-- A tagged group `g2` (tag 3) containing leaf `b`. -/
def rSampleG2 : RField := RField.mk 3 "g2" FieldType.group "G2" false none none none 4 [rSampleB]

/-- A label-only changes record. -/
def rLabelUpd : FieldUpdates := FieldUpdates.mk none none (some "A2") none none none none

/-- C2 (evaluation of the code at the failing input): updating leaf `a`'s label
inside group `g1` re-allocates the untouched sibling group `g2` — the returned
second root element is equal-by-value to `g2` but carries a fresh tag, i.e. it
is a copy and not the identical reference, because `recursiveMap` always
returns a freshly allocated children array and so its
`newChildren !== transformed.children` sharing check always fires. -/
theorem c2_structural_sharing_broken :
    (((rUpdateField [rSampleG1, rSampleG2] "a" rLabelUpd 6).1.2.get? 1).map RField.tag ≠
      some (RField.tag rSampleG2)) ∧
    (((rUpdateField [rSampleG1, rSampleG2] "a" rLabelUpd 6).1.2.get? 1).map rEraseField =
      some (rEraseField rSampleG2)) := by
  constructor <;>
    simp [rUpdateField, rUpdateGo, rSampleG1, rSampleG2, rSampleA, rSampleB,
      rLabelUpd, RField.tag, RField.ftype, RField.id, rEraseField, rEraseField.rEraseList]

/-- A tagged group `g` (tag 0, children-array tag 1) containing leaves `a`, `b`. -/
def rSampleG : RField :=
  RField.mk 0 "g" FieldType.group "G" false none none none 1 [rSampleA, rSampleB]

/-- C9 (evaluation of the code at the failing input): moving `a`, the first
child of group `g`, up is a value-level no-op and even returns the group
element itself, but the root fields array comes back with a fresh tag
(200, not the input array's 100): `fields.map(...)` always allocates, so the
boundary move is not a no-op at the reference level.  For a node at root level
the boundary move does return the identical array. -/
theorem c9_move_boundary_reallocates_root :
    (rMoveField 100 [rSampleG] "a" Direction.up 200 = ((200, [rSampleG]), 201)) ∧
    (200 : Nat) ≠ 100 ∧
    (rMoveField 100 [rSampleA, rSampleB] "a" Direction.up 200 =
      ((100, [rSampleA, rSampleB]), 200)) := by
  refine ⟨?_, by decide, ?_⟩ <;>
    simp [rMoveField, rMoveGo, rSwapInArray, findIdxAux, rSampleG, rSampleA, rSampleB,
      RField.id]

end FormBuilder
